import Mathlib

/-!
Shallow embedding of the signal-bitget repository for specification checking.

Covered source files:
* `src/unnamed/part_000` — `HotBarAggregator`: dual-granularity OHLCV bar
  construction from a trade stream (1-second "fine" bars, 60-second "coarse"
  bars) with flush-to-store semantics.
* `src/workerPrice.js` — the snapshot sampler: realized volatility from the
  fine-bar series and a fixed-offset price/volume grid.
* `src/websockets.js` — `BitgetWebsockets`: channel mapping, subscription
  sharding, batched subscribes, and the close/reconnect lifecycle.

Numbers carried by trades and bars are idealized as rationals (`ℚ`); the
volatility computation, which uses `Math.log` and `Math.sqrt`, is idealized
over the reals (`ℝ`).  Timestamps are naturals (milliseconds); `Math.floor`
of a division of non-negative numbers is `Nat` division.  Redis persistence
is modelled by returning the record that the code writes (`zadd`) from the
state-transition function; fire-and-forget error handling does not affect
the accumulator transition, so it is invisible at this level.
-/

namespace SignalBitget

/-- OHLCV bar record as serialized to the store by `HotBarAggregator`
(fields `t, o, h, l, c, v` of the flushed object, part_000 lines 65-72). -/
structure Bar where
  t : ℕ
  o : ℚ
  h : ℚ
  l : ℚ
  c : ℚ
  v : ℚ
deriving DecidableEq, Repr

/-- Per-symbol accumulator of `HotBarAggregator` (part_000 lines 39-44):
the currently open fine (second) bucket and coarse (minute) bucket.
`none` renders the JS `null` initial bucket timestamps. -/
structure Buf where
  secBucketTS : Option ℕ
  secOpen : ℚ
  secHigh : ℚ
  secLow : ℚ
  secClose : ℚ
  secVol : ℚ
  minBucketTS : Option ℕ
  minOpen : ℚ
  minHigh : ℚ
  minLow : ℚ
  minClose : ℚ
  minVol : ℚ
deriving DecidableEq, Repr

/-- Fresh accumulator installed on first trade of a symbol
(part_000 lines 38-46). -/
def initBuf : Buf :=
  { secBucketTS := none
    secOpen := 0, secHigh := 0, secLow := 0, secClose := 0, secVol := 0
    minBucketTS := none
    minOpen := 0, minHigh := 0, minLow := 0, minClose := 0, minVol := 0 }

/-- A trade tick: `(tradePrice, tradeVolume, eventTimeMs)`. -/
structure Trade where
  price : ℚ
  volume : ℚ
  eventTimeMs : ℕ
deriving DecidableEq, Repr

/-- Fine bucket index: `Math.floor(eventTimeMs / 1000)` (part_000 line 48). -/
def secBucketOf (eventTimeMs : ℕ) : ℕ := eventTimeMs / 1000

/-- Coarse bucket index: `Math.floor(eventTimeMs / 60000)` (part_000 line 49). -/
def minBucketOf (eventTimeMs : ℕ) : ℕ := eventTimeMs / 60000

/-- Second-bar section of `processTrade` (part_000 lines 51-85): initialize,
extend, or flush-and-reseed the fine accumulator.  Returns the updated
accumulator and the bar written to the store by the flush branch, if any. -/
def secStep (buf : Buf) (price vol : ℚ) (secBucket : ℕ) : Buf × Option Bar :=
  match buf.secBucketTS with
  | none =>
      ({ buf with secBucketTS := some secBucket,
                  secOpen := price, secHigh := price, secLow := price,
                  secClose := price, secVol := vol }, none)
  | some ts =>
      if secBucket = ts then
        ({ buf with secHigh := max buf.secHigh price,
                    secLow := min buf.secLow price,
                    secClose := price,
                    secVol := buf.secVol + vol }, none)
      else
        ({ buf with secBucketTS := some secBucket,
                    secOpen := price, secHigh := price, secLow := price,
                    secClose := price, secVol := vol },
         some { t := ts, o := buf.secOpen, h := buf.secHigh, l := buf.secLow,
                c := buf.secClose, v := buf.secVol })

/-- Minute-bar section of `processTrade` (part_000 lines 87-119): initialize,
extend, or — only when the triggering fine bucket satisfies
`secBucket % 60 == 0` — flush-and-reseed.  When the minute bucket changed but
the fine bucket is not on a minute boundary, the chain of `else if` branches
falls through and the minute accumulator is left untouched. -/
def minStep (buf : Buf) (price vol : ℚ) (secBucket minBucket : ℕ) :
    Buf × Option Bar :=
  match buf.minBucketTS with
  | none =>
      ({ buf with minBucketTS := some minBucket,
                  minOpen := price, minHigh := price, minLow := price,
                  minClose := price, minVol := vol }, none)
  | some ts =>
      if minBucket = ts then
        ({ buf with minHigh := max buf.minHigh price,
                    minLow := min buf.minLow price,
                    minClose := price,
                    minVol := buf.minVol + vol }, none)
      else if secBucket % 60 = 0 then
        ({ buf with minBucketTS := some minBucket,
                    minOpen := price, minHigh := price, minLow := price,
                    minClose := price, minVol := vol },
         some { t := ts, o := buf.minOpen, h := buf.minHigh, l := buf.minLow,
                c := buf.minClose, v := buf.minVol })
      else (buf, none)

/-- Result of one `processTrade` call: the updated accumulator plus the fine
and coarse bars flushed to the store during the call (each `none` or one). -/
structure StepResult where
  buf : Buf
  secEmit : Option Bar
  minEmit : Option Bar
deriving DecidableEq, Repr

/-- `HotBarAggregator.processTrade` (part_000 lines 35-120): the second-bar
section runs first, then the minute-bar section on the updated accumulator. -/
def processTrade (buf : Buf) (tradePrice tradeVolume : ℚ)
    (eventTimeMs : ℕ) : StepResult :=
  let secBucket := secBucketOf eventTimeMs
  let minBucket := minBucketOf eventTimeMs
  let s := secStep buf tradePrice tradeVolume secBucket
  let m := minStep s.1 tradePrice tradeVolume secBucket minBucket
  { buf := m.1, secEmit := s.2, minEmit := m.2 }

/-- Result of running `processTrade` over a list of trades: final accumulator
and the fine / coarse bars flushed along the way, in flush order. -/
structure RunResult where
  buf : Buf
  secBars : List Bar
  minBars : List Bar
deriving DecidableEq, Repr

/-- Fold `processTrade` over a trade list in arrival order, collecting the
flushed bars. -/
def processTrades (buf : Buf) : List Trade → RunResult
  | [] => { buf := buf, secBars := [], minBars := [] }
  | tr :: rest =>
      let r := processTrade buf tr.price tr.volume tr.eventTimeMs
      let rr := processTrades r.buf rest
      { buf := rr.buf,
        secBars := r.secEmit.toList ++ rr.secBars,
        minBars := r.minEmit.toList ++ rr.minBars }

/-- Projection of an accumulator onto its second-bar fields. -/
def secView (b : Buf) : Option ℕ × ℚ × ℚ × ℚ × ℚ × ℚ :=
  (b.secBucketTS, b.secOpen, b.secHigh, b.secLow, b.secClose, b.secVol)

/-- Projection of an accumulator onto its minute-bar fields. -/
def minView (b : Buf) : Option ℕ × ℚ × ℚ × ℚ × ℚ × ℚ :=
  (b.minBucketTS, b.minOpen, b.minHigh, b.minLow, b.minClose, b.minVol)

/-- The minute-bar section never touches the second-bar fields. -/
theorem minStep_secView (buf : Buf) (p v : ℚ) (sb mb : ℕ) :
    secView (minStep buf p v sb mb).1 = secView buf := by
  unfold minStep secView
  cases buf.minBucketTS
  · rfl
  · dsimp only
    split_ifs <;> rfl

/-- The second-bar section never touches the minute-bar fields. -/
theorem secStep_minView (buf : Buf) (p v : ℚ) (sb : ℕ) :
    minView (secStep buf p v sb).1 = minView buf := by
  unfold secStep minView
  cases buf.secBucketTS
  · rfl
  · dsimp only
    split_ifs <;> rfl

theorem secView_processTrade (buf : Buf) (p v : ℚ) (t : ℕ) :
    secView (processTrade buf p v t).buf
      = secView (secStep buf p v (secBucketOf t)).1 := by
  unfold processTrade
  exact minStep_secView _ _ _ _ _

/-- Helper: folding `max` over a list starting from `a` yields an element of
`a :: l` that bounds `a` and every element of `l` from above. -/
theorem foldl_max_spec (l : List ℚ) : ∀ a : ℚ,
    (l.foldl max a = a ∨ l.foldl max a ∈ l) ∧
    a ≤ l.foldl max a ∧ ∀ x ∈ l, x ≤ l.foldl max a := by
  induction l with
  | nil => exact fun a => ⟨Or.inl rfl, le_refl a, by simp⟩
  | cons b l ih =>
      intro a
      obtain ⟨hmem, hle, hbound⟩ := ih (max a b)
      refine ⟨?_, le_trans (le_max_left a b) hle, ?_⟩
      · rcases hmem with h | h
        · rcases max_choice a b with hc | hc
          · exact Or.inl (by rw [List.foldl_cons, h, hc])
          · exact Or.inr (by rw [List.foldl_cons, h, hc]; exact List.mem_cons_self b l)
        · exact Or.inr (List.mem_cons_of_mem b h)
      · intro x hx
        rcases List.mem_cons.mp hx with rfl | hx
        · exact le_trans (le_max_right a x) hle
        · exact hbound x hx

/-- Helper: folding `min` over a list starting from `a` yields an element of
`a :: l` that bounds `a` and every element of `l` from below. -/
theorem foldl_min_spec (l : List ℚ) : ∀ a : ℚ,
    (l.foldl min a = a ∨ l.foldl min a ∈ l) ∧
    l.foldl min a ≤ a ∧ ∀ x ∈ l, l.foldl min a ≤ x := by
  induction l with
  | nil => exact fun a => ⟨Or.inl rfl, le_refl a, by simp⟩
  | cons b l ih =>
      intro a
      obtain ⟨hmem, hle, hbound⟩ := ih (min a b)
      refine ⟨?_, le_trans hle (min_le_left a b), ?_⟩
      · rcases hmem with h | h
        · rcases min_choice a b with hc | hc
          · exact Or.inl (by rw [List.foldl_cons, h, hc])
          · exact Or.inr (by rw [List.foldl_cons, h, hc]; exact List.mem_cons_self b l)
        · exact Or.inr (List.mem_cons_of_mem b h)
      · intro x hx
        rcases List.mem_cons.mp hx with rfl | hx
        · exact le_trans hle (min_le_right a x)
        · exact hbound x hx

/-- Helper: the fold that `secClose` performs over an in-bucket run keeps the
price of the last trade (or the seed when the run is empty). -/
theorem foldl_price_getLast? (l : List Trade) : ∀ c : ℚ,
    l.foldl (fun _ t => t.price) c = ((l.getLast?).map Trade.price).getD c := by
  induction l with
  | nil => intro c; rfl
  | cons t l ih =>
      intro c
      cases l with
      | nil => rfl
      | cons t' l' =>
          have := ih t.price
          simpa [List.getLast?_cons_cons] using this

/-- Helper: a run of trades whose fine buckets all equal the open bucket `s`
extends the fine accumulator pointwise: open unchanged, close overwritten by
each trade in arrival order, high / low folded with max / min, volume summed. -/
theorem processTrades_extend (rest : List Trade) :
    ∀ (buf : Buf) (s : ℕ), buf.secBucketTS = some s →
    (∀ tr ∈ rest, secBucketOf tr.eventTimeMs = s) →
    (processTrades buf rest).buf.secBucketTS = some s ∧
    (processTrades buf rest).buf.secOpen = buf.secOpen ∧
    (processTrades buf rest).buf.secClose
      = rest.foldl (fun _ tr => tr.price) buf.secClose ∧
    (processTrades buf rest).buf.secHigh
      = rest.foldl (fun a tr => max a tr.price) buf.secHigh ∧
    (processTrades buf rest).buf.secLow
      = rest.foldl (fun a tr => min a tr.price) buf.secLow ∧
    (processTrades buf rest).buf.secVol
      = buf.secVol + (rest.map Trade.volume).sum := by
  induction rest with
  | nil =>
      intro buf s hb _
      simp [processTrades, hb]
  | cons tr rest ih =>
      intro buf s hb hall
      have htr : secBucketOf tr.eventTimeMs = s := hall tr (by simp)
      have hsec : secStep buf tr.price tr.volume (secBucketOf tr.eventTimeMs)
          = ({ buf with secHigh := max buf.secHigh tr.price,
                        secLow := min buf.secLow tr.price,
                        secClose := tr.price,
                        secVol := buf.secVol + tr.volume }, none) := by
        unfold secStep
        rw [hb, htr]
        simp
      have hview :
          secView (processTrade buf tr.price tr.volume tr.eventTimeMs).buf
            = secView { buf with secHigh := max buf.secHigh tr.price,
                                 secLow := min buf.secLow tr.price,
                                 secClose := tr.price,
                                 secVol := buf.secVol + tr.volume } := by
        rw [secView_processTrade, hsec]
      have hb' :
          (processTrade buf tr.price tr.volume tr.eventTimeMs).buf.secBucketTS
            = some s := by
        have := congrArg Prod.fst hview
        simpa [secView] using this.trans (by simp [secView, hb])
      obtain ⟨e0, e1, e2, e3, e4, e5⟩ :
          (processTrade buf tr.price tr.volume tr.eventTimeMs).buf.secBucketTS
            = buf.secBucketTS ∧
          (processTrade buf tr.price tr.volume tr.eventTimeMs).buf.secOpen
            = buf.secOpen ∧
          (processTrade buf tr.price tr.volume tr.eventTimeMs).buf.secHigh
            = max buf.secHigh tr.price ∧
          (processTrade buf tr.price tr.volume tr.eventTimeMs).buf.secLow
            = min buf.secLow tr.price ∧
          (processTrade buf tr.price tr.volume tr.eventTimeMs).buf.secClose
            = tr.price ∧
          (processTrade buf tr.price tr.volume tr.eventTimeMs).buf.secVol
            = buf.secVol + tr.volume := by
        have h := hview
        simp only [secView, Prod.mk.injEq] at h
        exact ⟨h.1, h.2.1, h.2.2.1, h.2.2.2.1, h.2.2.2.2.1, h.2.2.2.2.2⟩
      obtain ⟨i0, i1, i2, i3, i4, i5⟩ :=
        ih (processTrade buf tr.price tr.volume tr.eventTimeMs).buf s
          (e0.trans hb) (fun t ht => hall t (by simp [ht]))
      refine ⟨?_, ?_, ?_, ?_, ?_, ?_⟩ <;>
        simp only [processTrades]
      · exact i0
      · exact i1.trans e1
      · rw [i2, e4, List.foldl_cons]
      · rw [i3, e2, List.foldl_cons]
      · rw [i4, e3, List.foldl_cons]
      · rw [i5, e5, List.map_cons, List.sum_cons]
        ring

/-- Helper: prepending the head to a non-empty run does not change the
defaulted last price. -/
theorem getLast?_cons_getD (tr0 : Trade) (rest : List Trade) :
    (((tr0 :: rest).getLast?).map Trade.price).getD tr0.price
      = ((rest.getLast?).map Trade.price).getD tr0.price := by
  cases rest with
  | nil => simp
  | cons t l => rw [List.getLast?_cons_cons]

/-- Helper: the first trade of a run seeds the fine accumulator whenever its
bucket is not the currently open one (both the `null`-initialization branch
and the flush-and-reseed branch of the second-bar logic seed identically). -/
theorem secView_seed (buf : Buf) (tr0 : Trade) (s : ℕ)
    (h0 : secBucketOf tr0.eventTimeMs = s)
    (hbuf : buf.secBucketTS ≠ some s) :
    secView (processTrade buf tr0.price tr0.volume tr0.eventTimeMs).buf
      = (some s, tr0.price, tr0.price, tr0.price, tr0.price, tr0.volume) := by
  rw [secView_processTrade, h0]
  cases hcase : buf.secBucketTS with
  | none => simp [secStep, hcase, secView]
  | some ts =>
      have hne : ¬ s = ts := fun h => hbuf (by rw [hcase, h])
      simp [secStep, hcase, secView, hne]

/-- C1: for every non-empty in-bucket run of trades hitting an instrument
whose fine accumulator is not already open on that bucket, the accumulator
ends with open = first price, close = last price by arrival order, high =
maximum price, low = minimum price, and volume = sum of volumes. -/
theorem fine_bucket_run_ohlcv (buf : Buf) (tr0 : Trade) (rest : List Trade)
    (s : ℕ)
    (h0 : secBucketOf tr0.eventTimeMs = s)
    (hrest : ∀ tr ∈ rest, secBucketOf tr.eventTimeMs = s)
    (hbuf : buf.secBucketTS ≠ some s) :
    (processTrades buf (tr0 :: rest)).buf.secOpen = tr0.price ∧
    (processTrades buf (tr0 :: rest)).buf.secClose
      = (((tr0 :: rest).getLast?).map Trade.price).getD tr0.price ∧
    (processTrades buf (tr0 :: rest)).buf.secHigh
      ∈ (tr0 :: rest).map Trade.price ∧
    (∀ p ∈ (tr0 :: rest).map Trade.price,
      p ≤ (processTrades buf (tr0 :: rest)).buf.secHigh) ∧
    (processTrades buf (tr0 :: rest)).buf.secLow
      ∈ (tr0 :: rest).map Trade.price ∧
    (∀ p ∈ (tr0 :: rest).map Trade.price,
      (processTrades buf (tr0 :: rest)).buf.secLow ≤ p) ∧
    (processTrades buf (tr0 :: rest)).buf.secVol
      = ((tr0 :: rest).map Trade.volume).sum := by
  have hview := secView_seed buf tr0 s h0 hbuf
  simp only [secView, Prod.mk.injEq] at hview
  obtain ⟨e0, e1, e2, e3, e4, e5⟩ := hview
  obtain ⟨i0, i1, i2, i3, i4, i5⟩ :=
    processTrades_extend rest
      (processTrade buf tr0.price tr0.volume tr0.eventTimeMs).buf s e0 hrest
  have hrun :
      processTrades buf (tr0 :: rest)
        = { buf := (processTrades
              (processTrade buf tr0.price tr0.volume tr0.eventTimeMs).buf
              rest).buf,
            secBars :=
              (processTrade buf tr0.price tr0.volume tr0.eventTimeMs).secEmit.toList
                ++ (processTrades
                    (processTrade buf tr0.price tr0.volume tr0.eventTimeMs).buf
                    rest).secBars,
            minBars :=
              (processTrade buf tr0.price tr0.volume tr0.eventTimeMs).minEmit.toList
                ++ (processTrades
                    (processTrade buf tr0.price tr0.volume tr0.eventTimeMs).buf
                    rest).minBars } := rfl
  rw [hrun]
  have hfoldmax :
      rest.foldl (fun a tr => max a tr.price) tr0.price
        = (rest.map Trade.price).foldl max tr0.price := (List.foldl_map _ _ _ _).symm
  have hfoldmin :
      rest.foldl (fun a tr => min a tr.price) tr0.price
        = (rest.map Trade.price).foldl min tr0.price := (List.foldl_map _ _ _ _).symm
  obtain ⟨hmaxmem, hmaxle, hmaxbound⟩ := foldl_max_spec (rest.map Trade.price) tr0.price
  obtain ⟨hminmem, hminle, hminbound⟩ := foldl_min_spec (rest.map Trade.price) tr0.price
  refine ⟨?_, ?_, ?_, ?_, ?_, ?_, ?_⟩
  · exact i1.trans e1
  · rw [i2, e4, foldl_price_getLast? rest tr0.price, getLast?_cons_getD]
  · rw [i3, e2, hfoldmax, List.map_cons]
    rcases hmaxmem with h | h
    · rw [h]; exact List.mem_cons_self _ _
    · exact List.mem_cons_of_mem _ h
  · intro p hp
    rw [i3, e2, hfoldmax]
    rcases List.mem_cons.mp hp with rfl | hp'
    · exact hmaxle
    · exact hmaxbound p hp'
  · rw [i4, e3, hfoldmin, List.map_cons]
    rcases hminmem with h | h
    · rw [h]; exact List.mem_cons_self _ _
    · exact List.mem_cons_of_mem _ h
  · intro p hp
    rw [i4, e3, hfoldmin]
    rcases List.mem_cons.mp hp with rfl | hp'
    · exact hminle
    · exact hminbound p hp'
  · rw [i5, e5, List.map_cons, List.sum_cons]

/-- Witness for C1: a concrete 3-trade run inside fine bucket 1, processed
from the fresh accumulator. -/
theorem fine_bucket_run_ohlcv_witness :
    (processTrades initBuf
        [⟨5, 2, 1500⟩, ⟨7, 3, 1600⟩, ⟨4, 1, 1999⟩]).buf.secOpen
      = (⟨5, 2, 1500⟩ : Trade).price ∧
    (processTrades initBuf
        [⟨5, 2, 1500⟩, ⟨7, 3, 1600⟩, ⟨4, 1, 1999⟩]).buf.secClose
      = ((([⟨5, 2, 1500⟩, ⟨7, 3, 1600⟩, ⟨4, 1, 1999⟩] :
            List Trade).getLast?).map Trade.price).getD
          (⟨5, 2, 1500⟩ : Trade).price ∧
    (processTrades initBuf
        [⟨5, 2, 1500⟩, ⟨7, 3, 1600⟩, ⟨4, 1, 1999⟩]).buf.secHigh
      ∈ ([⟨5, 2, 1500⟩, ⟨7, 3, 1600⟩, ⟨4, 1, 1999⟩] :
            List Trade).map Trade.price ∧
    (∀ p ∈ ([⟨5, 2, 1500⟩, ⟨7, 3, 1600⟩, ⟨4, 1, 1999⟩] :
            List Trade).map Trade.price,
      p ≤ (processTrades initBuf
        [⟨5, 2, 1500⟩, ⟨7, 3, 1600⟩, ⟨4, 1, 1999⟩]).buf.secHigh) ∧
    (processTrades initBuf
        [⟨5, 2, 1500⟩, ⟨7, 3, 1600⟩, ⟨4, 1, 1999⟩]).buf.secLow
      ∈ ([⟨5, 2, 1500⟩, ⟨7, 3, 1600⟩, ⟨4, 1, 1999⟩] :
            List Trade).map Trade.price ∧
    (∀ p ∈ ([⟨5, 2, 1500⟩, ⟨7, 3, 1600⟩, ⟨4, 1, 1999⟩] :
            List Trade).map Trade.price,
      (processTrades initBuf
        [⟨5, 2, 1500⟩, ⟨7, 3, 1600⟩, ⟨4, 1, 1999⟩]).buf.secLow ≤ p) ∧
    (processTrades initBuf
        [⟨5, 2, 1500⟩, ⟨7, 3, 1600⟩, ⟨4, 1, 1999⟩]).buf.secVol
      = (([⟨5, 2, 1500⟩, ⟨7, 3, 1600⟩, ⟨4, 1, 1999⟩] :
            List Trade).map Trade.volume).sum :=
  fine_bucket_run_ohlcv initBuf ⟨5, 2, 1500⟩ [⟨7, 3, 1600⟩, ⟨4, 1, 1999⟩] 1
    (by decide) (by decide) (by decide)

/-- C2: a trade whose fine bucket lies strictly after the open one flushes
exactly one completed fine bar carrying the open bucket's O/H/L/C/V, and the
new fine accumulator is seeded solely from the triggering trade. -/
theorem fine_boundary_flush (buf : Buf) (b : ℕ) (p v : ℚ) (t : ℕ)
    (hb : buf.secBucketTS = some b) (hlt : b < secBucketOf t) :
    (processTrade buf p v t).secEmit
      = some { t := b, o := buf.secOpen, h := buf.secHigh, l := buf.secLow,
               c := buf.secClose, v := buf.secVol } ∧
    secView (processTrade buf p v t).buf
      = (some (secBucketOf t), p, p, p, p, v) := by
  have hne : ¬ secBucketOf t = b := Nat.ne_of_gt hlt
  constructor
  · show (secStep buf p v (secBucketOf t)).2 = _
    unfold secStep
    rw [hb]
    simp [hne]
  · rw [secView_processTrade]
    unfold secStep
    rw [hb]
    simp [hne, secView]

/-- Test fixture: an accumulator whose fine bucket 0 is open with
O/H/L/C/V = 1/3/1/2/10. -/
def c2buf : Buf :=
  { initBuf with secBucketTS := some 0, secOpen := 1, secHigh := 3,
                 secLow := 1, secClose := 2, secVol := 10 }

/-- Witness for C2: accumulator open on fine bucket 0, trade arriving in
fine bucket 1. -/
theorem fine_boundary_flush_witness :
    (processTrade c2buf 4 5 1500).secEmit
      = some { t := 0, o := c2buf.secOpen, h := c2buf.secHigh,
               l := c2buf.secLow, c := c2buf.secClose, v := c2buf.secVol } ∧
    secView (processTrade c2buf 4 5 1500).buf
      = (some (secBucketOf 1500), 4, 4, 4, 4, 5) :=
  fine_boundary_flush c2buf 0 4 5 1500 rfl (by decide)

/-- C3: a coarse bar can only be flushed by a trade whose fine-bucket index
is divisible by 60; trades at fine buckets 119 then 121 flush no coarse bar,
while 119 then 120 flushes one. -/
theorem coarse_flush_only_on_minute_boundary :
    (∀ (buf : Buf) (p v : ℚ) (t : ℕ),
        (processTrade buf p v t).minEmit ≠ none → secBucketOf t % 60 = 0) ∧
    (processTrades initBuf
        [⟨1, 1, 119000⟩, ⟨1, 1, 121000⟩]).minBars = [] ∧
    (processTrades initBuf
        [⟨1, 1, 119000⟩, ⟨1, 1, 120000⟩]).minBars.length = 1 := by
  refine ⟨?_, by decide, by decide⟩
  intro buf p v t h
  have hmE : (processTrade buf p v t).minEmit
      = (minStep (secStep buf p v (secBucketOf t)).1 p v
          (secBucketOf t) (minBucketOf t)).2 := rfl
  rw [hmE] at h
  unfold minStep at h
  rcases hcase : ((secStep buf p v (secBucketOf t)).1).minBucketTS with _ | ts
  · rw [hcase] at h
    simp at h
  · rw [hcase] at h
    dsimp only at h
    split_ifs at h with h1 h2
    · simp at h
    · exact h2
    · simp at h

/-- Witness for C3: the minute-flush branch actually fires for a trade at
fine bucket 120 against an accumulator open on minute bucket 1. -/
theorem coarse_flush_only_on_minute_boundary_witness :
    secBucketOf 120000 % 60 = 0 :=
  coarse_flush_only_on_minute_boundary.1
    { initBuf with minBucketTS := some 1 } 1 1 120000 (by decide)

/-- Helper: the minute-bar section reads and writes only the minute fields,
so accumulators agreeing on `minView` step to accumulators agreeing on
`minView` and emit the same coarse bar. -/
theorem minStep_congr (b1 b2 : Buf) (p v : ℚ) (sb mb : ℕ)
    (h : minView b1 = minView b2) :
    (minStep b1 p v sb mb).2 = (minStep b2 p v sb mb).2 ∧
    minView (minStep b1 p v sb mb).1 = minView (minStep b2 p v sb mb).1 := by
  simp only [minView, Prod.mk.injEq] at h
  obtain ⟨h0, h1, h2, h3, h4, h5⟩ := h
  unfold minStep minView
  rw [h0]
  cases hB : b2.minBucketTS with
  | none => simp [h1, h2, h3, h4, h5]
  | some ts =>
      rw [hB] at h0
      dsimp only
      split_ifs <;> simp [h0, hB, h1, h2, h3, h4, h5]

/-- Helper: the coarse-bar flush trace of a run depends only on the minute
fields of the starting accumulator. -/
theorem processTrades_minBars_congr (trs : List Trade) :
    ∀ b1 b2 : Buf, minView b1 = minView b2 →
    (processTrades b1 trs).minBars = (processTrades b2 trs).minBars ∧
    minView (processTrades b1 trs).buf = minView (processTrades b2 trs).buf := by
  induction trs with
  | nil => intro b1 b2 h; exact ⟨rfl, h⟩
  | cons tr trs ih =>
      intro b1 b2 h
      have hsec : minView (secStep b1 tr.price tr.volume
            (secBucketOf tr.eventTimeMs)).1
          = minView (secStep b2 tr.price tr.volume
            (secBucketOf tr.eventTimeMs)).1 :=
        (secStep_minView b1 _ _ _).trans
          (h.trans (secStep_minView b2 _ _ _).symm)
      obtain ⟨hemit, hview⟩ :=
        minStep_congr _ _ tr.price tr.volume
          (secBucketOf tr.eventTimeMs) (minBucketOf tr.eventTimeMs) hsec
      obtain ⟨hbars, hbuf⟩ := ih (processTrade b1 tr.price tr.volume tr.eventTimeMs).buf
        (processTrade b2 tr.price tr.volume tr.eventTimeMs).buf hview
      constructor
      · show (processTrade b1 tr.price tr.volume tr.eventTimeMs).minEmit.toList
            ++ (processTrades (processTrade b1 tr.price tr.volume tr.eventTimeMs).buf trs).minBars
          = (processTrade b2 tr.price tr.volume tr.eventTimeMs).minEmit.toList
            ++ (processTrades (processTrade b2 tr.price tr.volume tr.eventTimeMs).buf trs).minBars
        rw [hbars]
        congr 1
        show (minStep _ tr.price tr.volume _ _).2.toList
          = (minStep _ tr.price tr.volume _ _).2.toList
        rw [hemit]
      · exact hbuf

/-- C9: a trade that has moved past the open coarse bucket but whose fine
bucket is not on a minute boundary leaves the coarse accumulator entirely
unchanged, flushes no coarse bar, and the coarse-bar trace of any subsequent
run is exactly what it would have been without that trade's effect. -/
theorem skipped_coarse_trade_frame (buf : Buf) (m : ℕ) (p v : ℚ) (t : ℕ)
    (rest : List Trade)
    (hm : buf.minBucketTS = some m)
    (hbkt : minBucketOf t ≠ m)
    (hmod : secBucketOf t % 60 ≠ 0) :
    (processTrade buf p v t).minEmit = none ∧
    minView (processTrade buf p v t).buf = minView buf ∧
    (processTrades (processTrade buf p v t).buf rest).minBars
      = (processTrades buf rest).minBars := by
  have h1 : ((secStep buf p v (secBucketOf t)).1).minBucketTS = some m := by
    have := congrArg Prod.fst (secStep_minView buf p v (secBucketOf t))
    simpa [minView, hm] using this
  have hstep : minStep (secStep buf p v (secBucketOf t)).1 p v
        (secBucketOf t) (minBucketOf t)
      = ((secStep buf p v (secBucketOf t)).1, none) := by
    unfold minStep
    rw [h1]
    simp [hbkt, hmod]
  have hbufEq : (processTrade buf p v t).buf
      = (secStep buf p v (secBucketOf t)).1 := by
    show (minStep (secStep buf p v (secBucketOf t)).1 p v
        (secBucketOf t) (minBucketOf t)).1 = _
    rw [hstep]
  have hviewEq : minView (processTrade buf p v t).buf = minView buf := by
    rw [hbufEq]; exact secStep_minView buf p v (secBucketOf t)
  refine ⟨?_, hviewEq, ?_⟩
  · show (minStep (secStep buf p v (secBucketOf t)).1 p v
        (secBucketOf t) (minBucketOf t)).2 = none
    rw [hstep]
  · exact (processTrades_minBars_congr rest _ buf hviewEq).1

/-- Witness for C9: accumulator open on minute bucket 1, trade at fine
bucket 121 (minute bucket 2, not a minute boundary), followed by a further
trade at the minute boundary 180000 ms. -/
theorem skipped_coarse_trade_frame_witness :
    (processTrade { initBuf with minBucketTS := some 1, minVol := 5 }
        2 3 121000).minEmit = none ∧
    minView (processTrade { initBuf with minBucketTS := some 1, minVol := 5 }
        2 3 121000).buf
      = minView { initBuf with minBucketTS := some 1, minVol := 5 } ∧
    (processTrades (processTrade
        { initBuf with minBucketTS := some 1, minVol := 5 }
        2 3 121000).buf [⟨1, 1, 180000⟩]).minBars
      = (processTrades { initBuf with minBucketTS := some 1, minVol := 5 }
          [⟨1, 1, 180000⟩]).minBars :=
  skipped_coarse_trade_frame
    { initBuf with minBucketTS := some 1, minVol := 5 }
    1 2 3 121000 [⟨1, 1, 180000⟩] rfl (by decide) (by decide)

/-! Snapshot sampler, from `src/workerPrice.js`. -/

/-- Offsets for post-signal price snapshots, in seconds
(workerPrice.js line 7, verbatim). -/
def OFFSETS_S : List ℕ :=
  [1, 2, 3, 4, 5, 6, 7, 8, 9, 10, 11, 12, 13, 14, 15, 16, 17, 18, 19, 20,
   21, 22, 23, 24, 25, 26, 27, 28, 29, 30, 45, 60, 90, 120, 150, 180, 210,
   240, 270, 300, 330, 360, 390, 420, 450, 480, 510, 540, 570, 600, 660,
   720, 780, 840, 900, 960, 1020, 1080, 1140, 1200, 1260, 1320, 1380, 1440,
   1500, 1560, 1620, 1680, 1740, 1800]

/-- Lookup in `barMap = new Map(bars.map(bar => [bar.t, bar]))`
(workerPrice.js line 57): a JS `Map` built from an entry list keeps the last
entry for a duplicate key, so the lookup scans from the right. -/
def barMapGet (bars : List Bar) (t : ℕ) : Option Bar :=
  bars.reverse.find? (fun b => b.t == t)

/-- Lookup `bars.find(b => b.t >= t)` (workerPrice.js line 60): first bar in
fetched order at or after the target. -/
def findGE (bars : List Bar) (t : ℕ) : Option Bar :=
  bars.find? (fun b => decide (t ≤ b.t))

/-- Three-tier resolution
`barMap.get(t) || bars.find(b => b.t >= t) || bars[bars.length - 1]`
(workerPrice.js line 60); every bar object is truthy, so `||` chains the
three lookups as options, and `bars[-1]` of an empty array is `undefined`. -/
def resolveBar (bars : List Bar) (t : ℕ) : Option Bar :=
  match barMapGet bars t with
  | some bar => some bar
  | none =>
      match findGE bars t with
      | some bar => some bar
      | none => bars.getLast?

/-- One row of the sampler's grid, `{ t_offset_s, price, volume }` with
`null` price and volume when no bar resolves (workerPrice.js lines 61-65). -/
structure PriceRow where
  t_offset_s : ℕ
  price : Option ℚ
  volume : Option ℚ
deriving DecidableEq, Repr

/-- Row built for one offset (workerPrice.js lines 58-66). -/
def priceRow (bars : List Bar) (startSec sec : ℕ) : PriceRow :=
  match resolveBar bars (startSec + sec) with
  | some bar => { t_offset_s := sec, price := some bar.c, volume := some bar.v }
  | none => { t_offset_s := sec, price := none, volume := none }

/-- The full grid `OFFSETS_S.map(...)` (workerPrice.js line 58). -/
def priceRows (bars : List Bar) (startSec : ℕ) : List PriceRow :=
  OFFSETS_S.map (priceRow bars startSec)

/-- Log-return series of `realisedSigmaFromBars` (workerPrice.js lines
18-25): one `Math.log(p1 / p0)` per consecutive pair whose earlier close is
strictly positive.  Closes are rationals in the embedding; the logarithm is
taken over the reals. -/
noncomputable def logReturns : List Bar → List ℝ
  | b0 :: b1 :: rest =>
      (if 0 < b0.c then [Real.log ((b1.c : ℝ) / (b0.c : ℝ))] else [])
        ++ logReturns (b1 :: rest)
  | _ => []

/-- `realisedSigmaFromBars` (workerPrice.js lines 16-29) over the ideal
reals: `null` for fewer than 2 bars, else the square root of the mean
squared deviation of the log-return series from its mean.  The JS division
`0/0` that occurs when the return series is empty is rendered faithfully at
IEEE fidelity by `realisedSigmaFromBarsJS` below; over ℝ it denotes `0`. -/
noncomputable def realisedSigmaFromBars (bars : List Bar) : Option ℝ :=
  if bars.length < 2 then none
  else
    let rets := logReturns bars
    let μ := rets.sum / (rets.length : ℝ)
    let var_ := (rets.map (fun x => (x - μ) ^ 2)).sum / (rets.length : ℝ)
    some (Real.sqrt var_)

/-- Population standard deviation of a series, written from the spec's
words: mean of squared deviations from the mean, dividing by N (not N−1),
then the square root. -/
noncomputable def populationStdDev (xs : List ℝ) : ℝ :=
  Real.sqrt ((xs.map (fun x => (x - xs.sum / (xs.length : ℝ)) ^ 2)).sum
    / (xs.length : ℝ))

/-- C4: `realisedSigmaFromBars` is `null` below 2 bars and otherwise the
population standard deviation of the log-return series; closes
`[100, 100, 100]` give volatility 0 and closes `[100, 110]` give one
log-return and volatility 0. -/
theorem realisedSigma_spec :
    (∀ bars : List Bar, bars.length < 2 → realisedSigmaFromBars bars = none) ∧
    (∀ bars : List Bar, 2 ≤ bars.length →
      realisedSigmaFromBars bars
        = some (populationStdDev (logReturns bars))) ∧
    (∀ b1 b2 b3 : Bar, b1.c = 100 → b2.c = 100 → b3.c = 100 →
      realisedSigmaFromBars [b1, b2, b3] = some 0) ∧
    (∀ b1 b2 : Bar, b1.c = 100 → b2.c = 110 →
      logReturns [b1, b2] = [Real.log ((110 : ℝ) / 100)] ∧
      realisedSigmaFromBars [b1, b2] = some 0) := by
  refine ⟨?_, ?_, ?_, ?_⟩
  · intro bars h
    simp [realisedSigmaFromBars, h]
  · intro bars h
    rw [realisedSigmaFromBars, if_neg (not_lt.mpr h)]
    rfl
  · intro b1 b2 b3 h1 h2 h3
    have hret : logReturns [b1, b2, b3] = [0, 0] := by
      simp [logReturns, h1, h2, h3]
    rw [realisedSigmaFromBars, if_neg (by norm_num)]
    simp [hret]
  · intro b1 b2 h1 h2
    have hret : logReturns [b1, b2] = [Real.log ((110 : ℝ) / 100)] := by
      simp [logReturns, h1, h2]
    refine ⟨hret, ?_⟩
    rw [realisedSigmaFromBars, if_neg (by norm_num)]
    simp [hret]

/-- Test fixture: a bar whose close is `c` and whose other fields are 0. -/
def cBar (c : ℚ) : Bar := { t := 0, o := 0, h := 0, l := 0, c := c, v := 0 }

/-- Witness for C4: three bars closing at 100 give volatility 0. -/
theorem realisedSigma_spec_witness :
    realisedSigmaFromBars [cBar 100, cBar 100, cBar 100] = some 0 :=
  realisedSigma_spec.2.2.1 (cBar 100) (cBar 100) (cBar 100) rfl rfl rfl

/-- Helper: in a strictly `t`-sorted fetched set, bucket starts identify
bars uniquely. -/
theorem sorted_t_unique (bars : List Bar)
    (hs : List.Sorted (fun a b : Bar => a.t < b.t) bars) :
    ∀ b1 ∈ bars, ∀ b2 ∈ bars, b1.t = b2.t → b1 = b2 := by
  induction bars with
  | nil => intro b1 h1; exact absurd h1 (List.not_mem_nil b1)
  | cons hd tl ih =>
      obtain ⟨hhd, htl⟩ := List.pairwise_cons.mp hs
      intro b1 h1 b2 h2 heq
      rcases List.mem_cons.mp h1 with rfl | h1' <;>
        rcases List.mem_cons.mp h2 with rfl | h2'
      · rfl
      · exact absurd heq (ne_of_lt (hhd b2 h2'))
      · exact absurd heq.symm (ne_of_lt (hhd b1 h1'))
      · exact ih htl b1 h1' b2 h2' heq

/-- Helper: `bars.find(b => b.t >= t)` returns, in a strictly sorted fetched
set, a bar whose bucket start is minimal among those at or after the
target. -/
theorem findGE_min (bars : List Bar)
    (hs : List.Sorted (fun a b : Bar => a.t < b.t) bars) (target : ℕ)
    (x : Bar) (hfind : findGE bars target = some x) :
    ∀ b ∈ bars, target ≤ b.t → x.t ≤ b.t := by
  induction bars with
  | nil => simp [findGE] at hfind
  | cons hd tl ih =>
      obtain ⟨hhd, htl⟩ := List.pairwise_cons.mp hs
      intro b hb hble
      by_cases hp : target ≤ hd.t
      · have : findGE (hd :: tl) target = some hd := by
          simp [findGE, List.find?_cons_of_pos, hp]
        rw [this] at hfind
        cases hfind
        rcases List.mem_cons.mp hb with rfl | hb'
        · exact le_refl _
        · exact le_of_lt (hhd b hb')
      · have : findGE (hd :: tl) target = findGE tl target := by
          simp [findGE, List.find?_cons_of_neg, hp]
        rw [this] at hfind
        rcases List.mem_cons.mp hb with rfl | hb'
        · exact absurd hble hp
        · exact ih htl hfind b hb' hble

/-- C5: over a strictly ascending fetched set the sampler resolves each grid
target by exact match, else by forward-fill to the minimal bar at or after
the target, else by falling back to the last fetched bar; the row carries
the resolved bar's close and volume and is `null`/`null` when the fetched
set is empty. -/
theorem resolve_grid (bars : List Bar)
    (hs : List.Sorted (fun a b : Bar => a.t < b.t) bars) (startSec sec : ℕ) :
    (∀ b ∈ bars, b.t = startSec + sec →
      resolveBar bars (startSec + sec) = some b) ∧
    ((∀ x ∈ bars, x.t ≠ startSec + sec) →
      ∀ b ∈ bars, startSec + sec ≤ b.t →
      (∀ x ∈ bars, startSec + sec ≤ x.t → b.t ≤ x.t) →
      resolveBar bars (startSec + sec) = some b) ∧
    ((∀ x ∈ bars, x.t < startSec + sec) →
      resolveBar bars (startSec + sec) = bars.getLast?) ∧
    (priceRow bars startSec sec
      = { t_offset_s := sec,
          price := (resolveBar bars (startSec + sec)).map Bar.c,
          volume := (resolveBar bars (startSec + sec)).map Bar.v }) ∧
    (bars = [] →
      priceRow bars startSec sec
        = { t_offset_s := sec, price := none, volume := none }) := by
  refine ⟨?_, ?_, ?_, ?_, ?_⟩
  · intro b hb hbt
    have hmap : barMapGet bars (startSec + sec) = some b := by
      unfold barMapGet
      cases hf : bars.reverse.find? (fun x => x.t == startSec + sec) with
      | none =>
          exfalso
          have := List.find?_eq_none.mp hf b (List.mem_reverse.mpr hb)
          simp [hbt] at this
      | some x =>
          have hxmem : x ∈ bars :=
            List.mem_reverse.mp (List.mem_of_find?_eq_some hf)
          have hxt : x.t = startSec + sec := by
            have := List.find?_some hf
            simpa using this
          have : x = b :=
            sorted_t_unique bars hs x hxmem b hb (hxt.trans hbt.symm)
          rw [this]
    unfold resolveBar
    rw [hmap]
  · intro hnone b hb hge hmin
    have hmap : barMapGet bars (startSec + sec) = none := by
      unfold barMapGet
      refine List.find?_eq_none.mpr ?_
      intro x hx
      simpa using hnone x (List.mem_reverse.mp hx)
    have hfind : findGE bars (startSec + sec) = some b := by
      cases hf : findGE bars (startSec + sec) with
      | none =>
          exfalso
          have := List.find?_eq_none.mp hf b hb
          simp [findGE] at this
          omega
      | some x =>
          have hxmem : x ∈ bars := List.mem_of_find?_eq_some hf
          have hxge : startSec + sec ≤ x.t := by
            have := List.find?_some hf
            simpa using this
          have h1 : x.t ≤ b.t := findGE_min bars hs (startSec + sec) x hf b hb hge
          have h2 : b.t ≤ x.t := hmin x hxmem hxge
          have : x = b := sorted_t_unique bars hs x hxmem b hb (le_antisymm h1 h2)
          rw [this]
    unfold resolveBar
    rw [hmap, hfind]
  · intro hlt
    have hmap : barMapGet bars (startSec + sec) = none := by
      unfold barMapGet
      refine List.find?_eq_none.mpr ?_
      intro x hx
      have := hlt x (List.mem_reverse.mp hx)
      simp
      omega
    have hfind : findGE bars (startSec + sec) = none := by
      refine List.find?_eq_none.mpr ?_
      intro x hx
      have := hlt x hx
      simp
      omega
    unfold resolveBar
    rw [hmap, hfind]
  · unfold priceRow
    cases resolveBar bars (startSec + sec) <;> rfl
  · intro h
    subst h
    rfl

/-- Test fixtures for C5: bars at buckets 0, 5 and 10. -/
def gBar0 : Bar := { t := 0, o := 0, h := 0, l := 0, c := 11, v := 1 }

def gBar5 : Bar := { t := 5, o := 0, h := 0, l := 0, c := 22, v := 2 }

def gBar10 : Bar := { t := 10, o := 0, h := 0, l := 0, c := 33, v := 3 }

/-- Witness for C5: with bars at buckets 0, 5, 10, target 1 forward-fills to
the bar at 5 and target 12 falls back to the last bar. -/
theorem resolve_grid_witness :
    resolveBar [gBar0, gBar5, gBar10] (0 + 1) = some gBar5 ∧
    resolveBar [gBar0, gBar5, gBar10] (0 + 12)
      = [gBar0, gBar5, gBar10].getLast? :=
  ⟨(resolve_grid [gBar0, gBar5, gBar10] (by decide) 0 1).2.1
      (by decide) gBar5 (by decide) (by decide) (by decide),
   (resolve_grid [gBar0, gBar5, gBar10] (by decide) 0 12).2.2.1 (by decide)⟩

/-- Counterexample for C6: the claim asserts the grid contains offset 0, but
the source list starts at 1 — offset 0 is absent. -/
theorem offsets_counterexample : (0 : ℕ) ∉ OFFSETS_S := by decide

/-- C6 (amended): the grid is strictly ascending, covers every integer
offset from 1 through 30 — offset 0 is not in the grid — and then climbs in
steps of at least 15 seconds up to 1800. -/
theorem offsets_amended :
    List.Sorted (· < ·) OFFSETS_S ∧
    OFFSETS_S.take 30 = (List.range 30).map (· + 1) ∧
    (0 : ℕ) ∉ OFFSETS_S ∧
    OFFSETS_S.getLast? = some 1800 ∧
    List.Pairwise (fun a b => a + 15 ≤ b) (OFFSETS_S.drop 29) := by
  refine ⟨by decide, by decide, by decide, by decide, by decide⟩

/-- IEEE-double value as manipulated by the volatility code, at the fidelity
claim-relevant here: a finite real or NaN.  Non-finite JS results other than
NaN (the ±Infinity produced by `Math.log(0)` or by dividing a non-zero
numerator by zero) are conflated into `nan`; no theorem below exercises
those paths — the only division in the modelled code is by `rets.length`,
whose numerator is a fold over `rets` and hence exactly 0 whenever the
denominator is 0. -/
inductive JSNum where
  | nan : JSNum
  | fin : ℝ → JSNum

/-- JS addition: NaN-propagating. -/
noncomputable def jadd : JSNum → JSNum → JSNum
  | .fin a, .fin b => .fin (a + b)
  | _, _ => .nan

/-- JS subtraction: NaN-propagating. -/
noncomputable def jsub : JSNum → JSNum → JSNum
  | .fin a, .fin b => .fin (a - b)
  | _, _ => .nan

/-- JS `Math.pow(x, 2)`: NaN-propagating. -/
noncomputable def jpow2 : JSNum → JSNum
  | .fin a => .fin (a ^ 2)
  | _ => .nan

/-- JS division: `0/0` is NaN; see the `JSNum` comment for the conflated
non-zero-over-zero case, which the modelled code never reaches. -/
noncomputable def jdiv : JSNum → JSNum → JSNum
  | .fin a, .fin b => if b = 0 then .nan else .fin (a / b)
  | _, _ => .nan

/-- JS `Math.sqrt`: NaN on NaN and on negative arguments. -/
noncomputable def jsqrt : JSNum → JSNum
  | .fin a => if a < 0 then .nan else .fin (Real.sqrt a)
  | _ => .nan

/-- JS `Math.log`: the genuine logarithm on positive arguments; NaN on NaN
and on negative arguments; `Math.log(0)` is −Infinity in JS, conflated to
`nan` here and never reached by the theorems below. -/
noncomputable def jlog : JSNum → JSNum
  | .fin a => if 0 < a then .fin (Real.log a) else .nan
  | _ => .nan

/-- The `rets.reduce((s, x) => s + x, 0)` fold (workerPrice.js lines 26-27). -/
noncomputable def jsum (xs : List JSNum) : JSNum := xs.foldl jadd (.fin 0)

/-- Log-return series at IEEE fidelity (workerPrice.js lines 18-25): the
`p0 > 0` guard is evaluated on the rational close, and skipped pairs never
invoke `Math.log`. -/
noncomputable def logReturnsJS : List Bar → List JSNum
  | b0 :: b1 :: rest =>
      (if 0 < b0.c then [jlog (jdiv (.fin (b1.c : ℝ)) (.fin (b0.c : ℝ)))]
       else [])
        ++ logReturnsJS (b1 :: rest)
  | _ => []

/-- `realisedSigmaFromBars` at IEEE fidelity (workerPrice.js lines 16-29):
identical control flow to the real-valued model, but the mean and variance
divisions by `rets.length` follow JS float semantics, so an empty return
series produces NaN rather than a number. -/
noncomputable def realisedSigmaFromBarsJS (bars : List Bar) : Option JSNum :=
  if bars.length < 2 then none
  else
    let rets := logReturnsJS bars
    let μ := jdiv (jsum rets) (.fin (rets.length : ℝ))
    let var_ := jdiv (jsum (rets.map (fun x => jpow2 (jsub x μ))))
      (.fin (rets.length : ℝ))
    some (jsqrt var_)

/-- Helper: when every pair's earlier close is non-positive, the `p0 > 0`
guard rejects every pair and the return series is empty. -/
theorem logReturnsJS_nil (bars : List Bar)
    (h : ∀ b ∈ bars.dropLast, b.c ≤ 0) : logReturnsJS bars = [] := by
  induction bars with
  | nil => rfl
  | cons b0 tl ih =>
      cases tl with
      | nil => rfl
      | cons b1 rest =>
          have hb0 : b0.c ≤ 0 := h b0 (by simp)
          have hrec : logReturnsJS (b1 :: rest) = [] := by
            refine ih ?_
            intro b hb
            refine h b ?_
            simp only [List.dropLast_cons₂, List.mem_cons]
            exact Or.inr hb
          show (if 0 < b0.c then _ else []) ++ logReturnsJS (b1 :: rest) = []
          rw [if_neg (not_lt.mpr hb0), hrec, List.nil_append]

/-- C10: with at least 2 bars but every earlier close non-positive, the
return series is empty, the mean is a `0/0` division, and the function
returns NaN, not `null`; `null` arises exactly when fewer than 2 bars are
given. -/
theorem realisedSigmaJS_nan :
    (∀ bars : List Bar, 2 ≤ bars.length → (∀ b ∈ bars.dropLast, b.c ≤ 0) →
      realisedSigmaFromBarsJS bars = some JSNum.nan) ∧
    (∀ bars : List Bar,
      realisedSigmaFromBarsJS bars = none ↔ bars.length < 2) := by
  constructor
  · intro bars hlen hneg
    have hrets : logReturnsJS bars = [] := logReturnsJS_nil bars hneg
    rw [realisedSigmaFromBarsJS, if_neg (not_lt.mpr hlen)]
    simp [hrets, jsum, jdiv, jsqrt]
  · intro bars
    rw [realisedSigmaFromBarsJS]
    split_ifs with h <;> simp [h]

/-- Test fixture: a bar closing at a negative price. -/
def negBar : Bar := { t := 0, o := 0, h := 0, l := 0, c := -1, v := 0 }

/-- Witness for C10: two bars with earlier close −1 yield NaN. -/
theorem realisedSigmaJS_nan_witness :
    realisedSigmaFromBarsJS [negBar, negBar] = some JSNum.nan :=
  realisedSigmaJS_nan.1 [negBar, negBar] (by decide) (by decide)

/-! Protocol adapter, from `src/websockets.js`. -/

/-- Bitget v2 subscription arg-object `{instType, channel, instId}`
(websockets.js lines 22-32). -/
structure Arg where
  instType : String
  channel : String
  instId : String
deriving DecidableEq, Repr

/-- Keep at most 50 channels per socket (websockets.js line 5). -/
def MAX_ARGS_PER_WS : ℕ := 50

/-- Send subscribe packets in chunks of 20 (websockets.js line 6). -/
def SUB_BATCH_SIZE : ℕ := 20

/-- Client-to-server heartbeat interval (websockets.js line 7). -/
def PING_INTERVAL_MS : ℕ := 30000

/-- Delay before spawning a replacement session (websockets.js line 8). -/
def RECONNECT_DELAY_MS : ℕ := 2000

/-- `mapChannelToArg` (websockets.js lines 15-33): split a Binance-style
stream string at its first `@`, uppercase the symbol, lowercase the stream,
and translate the three supported stream kinds; anything else is `null`. -/
def mapChannelToArg (ch : String) : Option Arg :=
  match ch.data.findIdx? (· == '@') with
  | none => none
  | some i =>
      let symbol := String.mk ((ch.data.take i).map Char.toUpper)
      let stream := String.mk ((ch.data.drop (i + 1)).map Char.toLower)
      if stream = "aggtrade" then
        some { instType := "SPOT", channel := "trade", instId := symbol }
      else if stream = "ticker" then
        some { instType := "SPOT", channel := "ticker", instId := symbol }
      else if stream = "depth5@100ms" then
        some { instType := "SPOT", channel := "books5", instId := symbol }
      else none

/-- The slicing loop `for (i = 0; i < l.length; i += n) push(l.slice(i, i+n))`
used both by `connect` (n = 50, websockets.js lines 127-130) and by the
on-open subscribe loop (n = 20, lines 158-161).  Both call sites use a
positive constant step; `max n 1` only guards the degenerate step 0, on
which the JS loop would not terminate either. -/
def chunksOf {α : Type} (n : ℕ) (l : List α) : List (List α) :=
  match l with
  | [] => []
  | x :: xs =>
      (x :: xs).take (max n 1) :: chunksOf n ((x :: xs).drop (max n 1))
termination_by l.length
decreasing_by
  simp only [List.length_drop, List.length_cons]
  have := le_max_right n 1
  omega

/-- Shards spawned by `connect` (websockets.js lines 114-134): map the
channels, drop unsupported ones, chunk into at most `MAX_ARGS_PER_WS`, one
socket per chunk (and no socket when nothing mapped). -/
def connectChunks (channels : List String) : List (List Arg) :=
  chunksOf MAX_ARGS_PER_WS (channels.filterMap mapChannelToArg)

/-- Subscribe batches a session sends on open (websockets.js lines 158-161). -/
def subscribeBatches (argChunk : List Arg) : List (List Arg) :=
  chunksOf SUB_BATCH_SIZE argChunk

/-- Helper: the slicing loop does nothing on an empty list. -/
theorem chunksOf_nil {α : Type} (n : ℕ) : chunksOf n ([] : List α) = [] := by
  simp only [chunksOf]

/-- Helper: one unfolding of the slicing loop on a non-empty list. -/
theorem chunksOf_cons {α : Type} (n : ℕ) (l : List α) (h : l ≠ []) :
    chunksOf n l = l.take (max n 1) :: chunksOf n (l.drop (max n 1)) := by
  cases l with
  | nil => exact absurd rfl h
  | cons x xs => simp only [chunksOf]

/-- Helper: the slices cover the list exactly. -/
theorem chunksOf_flatten {α : Type} (n : ℕ) (l : List α) :
    (chunksOf n l).flatten = l := by
  generalize hN : l.length = N
  induction N using Nat.strong_induction_on generalizing l with
  | _ N ih =>
      cases l with
      | nil => rw [chunksOf_nil]; rfl
      | cons x xs =>
          rw [chunksOf_cons n (x :: xs) (by simp), List.flatten_cons,
            ih (((x :: xs).drop (max n 1)).length) (by
              rw [← hN]
              simp only [List.length_drop, List.length_cons]
              have := le_max_right n 1
              omega) _ rfl]
          exact List.take_append_drop _ _

/-- Helper: every slice respects the chunk bound. -/
theorem chunksOf_le {α : Type} (n : ℕ) (l : List α) :
    ∀ c ∈ chunksOf n l, c.length ≤ max n 1 := by
  generalize hN : l.length = N
  induction N using Nat.strong_induction_on generalizing l with
  | _ N ih =>
      cases l with
      | nil => rw [chunksOf_nil]; intro c hc; exact absurd hc (List.not_mem_nil c)
      | cons x xs =>
          rw [chunksOf_cons n (x :: xs) (by simp)]
          intro c hc
          rcases List.mem_cons.mp hc with rfl | hc'
          · rw [List.length_take]
            exact Nat.min_le_left _ _
          · exact ih (((x :: xs).drop (max n 1)).length) (by
              rw [← hN]
              simp only [List.length_drop, List.length_cons]
              have := le_max_right n 1
              omega) _ rfl c hc'

/-- C7: `connect` shards the mapped descriptors into chunks of at most
`MAX_ARGS_PER_WS` covering them exactly, each session subscribes in batches
of at most `SUB_BATCH_SIZE` covering its shard exactly, and 120 mapped
channels shard into exactly 3 sessions of sizes 50, 50 and 20. -/
theorem connect_sharding (channels : List String) :
    (∀ s ∈ connectChunks channels, s.length ≤ MAX_ARGS_PER_WS) ∧
    (connectChunks channels).flatten = channels.filterMap mapChannelToArg ∧
    (∀ s ∈ connectChunks channels,
      (subscribeBatches s).flatten = s ∧
      ∀ b ∈ subscribeBatches s, b.length ≤ SUB_BATCH_SIZE) ∧
    ((channels.filterMap mapChannelToArg).length = 120 →
      (connectChunks channels).length = 3 ∧
      (connectChunks channels).map List.length = [50, 50, 20]) := by
  refine ⟨?_, chunksOf_flatten _ _, ?_, ?_⟩
  · intro s hs
    have h := chunksOf_le MAX_ARGS_PER_WS _ s hs
    rwa [show max MAX_ARGS_PER_WS 1 = MAX_ARGS_PER_WS from rfl] at h
  · intro s _
    refine ⟨chunksOf_flatten _ _, ?_⟩
    intro b hb
    have h := chunksOf_le SUB_BATCH_SIZE s b hb
    rwa [show max SUB_BATCH_SIZE 1 = SUB_BATCH_SIZE from rfl] at h
  · intro hlen
    have h0 : channels.filterMap mapChannelToArg ≠ [] := by
      intro h
      rw [h] at hlen
      simp at hlen
    have hd1 : ((channels.filterMap mapChannelToArg).drop 50).length = 70 := by
      simp [List.length_drop, hlen]
    have hd2 : (((channels.filterMap mapChannelToArg).drop 50).drop 50).length
        = 20 := by
      simp [List.length_drop, hlen]
    have h1 : (channels.filterMap mapChannelToArg).drop 50 ≠ [] := by
      intro h
      rw [h] at hd1
      simp at hd1
    have h2 : ((channels.filterMap mapChannelToArg).drop 50).drop 50 ≠ [] := by
      intro h
      rw [h] at hd2
      simp at hd2
    have h3 : (((channels.filterMap mapChannelToArg).drop 50).drop 50).drop 50
        = [] := by
      refine List.eq_nil_of_length_eq_zero ?_
      simp [List.length_drop, hlen]
    have hrw : connectChunks channels
        = [(channels.filterMap mapChannelToArg).take 50,
           ((channels.filterMap mapChannelToArg).drop 50).take 50,
           (((channels.filterMap mapChannelToArg).drop 50).drop 50).take 50] := by
      show chunksOf MAX_ARGS_PER_WS _ = _
      rw [chunksOf_cons _ _ h0,
        show max MAX_ARGS_PER_WS 1 = 50 from rfl]
      rw [chunksOf_cons _ _ h1,
        show max MAX_ARGS_PER_WS 1 = 50 from rfl]
      rw [chunksOf_cons _ _ h2,
        show max MAX_ARGS_PER_WS 1 = 50 from rfl]
      rw [h3, chunksOf_nil]
    rw [hrw]
    constructor
    · rfl
    · simp [List.length_take, List.length_drop, hlen]

/-- Ticker arg used by the adapter witnesses. -/
def tickArg : Arg := { instType := "SPOT", channel := "ticker", instId := "BTCUSDT" }

/-- Helper: `filterMap` of a constantly-mapped channel over a replicate. -/
theorem filterMap_replicate_ticker (n : ℕ) :
    (List.replicate n "btcusdt@ticker").filterMap mapChannelToArg
      = List.replicate n tickArg := by
  induction n with
  | zero => rfl
  | succ k ih =>
      rw [List.replicate_succ, List.replicate_succ, List.filterMap_cons]
      rw [show mapChannelToArg "btcusdt@ticker" = some tickArg from rfl, ih]

/-- Witness for C7: 120 identical mapped channels spawn exactly 3 sessions
of sizes 50, 50 and 20. -/
theorem connect_sharding_witness :
    (connectChunks (List.replicate 120 "btcusdt@ticker")).length = 3 ∧
    (connectChunks (List.replicate 120 "btcusdt@ticker")).map List.length
      = [50, 50, 20] :=
  (connect_sharding (List.replicate 120 "btcusdt@ticker")).2.2.2
    (by rw [filterMap_replicate_ticker]; rfl)

/-- Event-level model of one vendor session (`_spawnSocket`, websockets.js
lines 150-212): the shard chunk captured by its closure, whether its event
listeners are still attached (removed by `disconnect`, line 140), and
whether its heartbeat interval timer is running. -/
structure Session where
  chunk : List Arg
  listenersOn : Bool
  timerOn : Bool
deriving DecidableEq, Repr

/-- Adapter tracking state: `this._sockets` plus the set of reconnect
timeouts scheduled by close handlers (`setTimeout(..., reconnectMs)`,
websockets.js line 210, holding each one's shard chunk). -/
structure AdapterState where
  sockets : List Session
  pending : List (List Arg)
deriving DecidableEq, Repr

/-- `_spawnSocket(argChunk)` (websockets.js lines 150-152): a fresh socket
with its listeners attached is appended to `this._sockets`; its heartbeat
timer starts only on open. -/
def spawnSocket (st : AdapterState) (argChunk : List Arg) : AdapterState :=
  { st with
    sockets := st.sockets
      ++ [{ chunk := argChunk, listenersOn := true, timerOn := false }] }

/-- Session lifecycle events delivered to the adapter: socket `i` opens,
socket `i` closes, the fixed reconnect delay elapses (due `setTimeout`
callbacks run), or the application calls `disconnect()`. -/
inductive Ev where
  | openEvt (i : ℕ)
  | closeEvt (i : ℕ)
  | elapse
  | disconnectCall

/-- One event step of the adapter, from websockets.js:
open handler (lines 154-171) starts the heartbeat timer; close handler
(lines 204-211) — which runs only while the listeners are attached —
cancels the heartbeat timer and schedules a respawn of the identical shard
chunk after the fixed delay; `elapse` runs the due respawns
(`_spawnSocket(argChunk)`, line 210); `disconnect` (lines 137-146) clears
every heartbeat timer, removes all listeners, closes the sockets and resets
`this._sockets` — the sockets' later close events then find no handler, and
already-scheduled reconnect timeouts are not cancelled. -/
def stepEv (st : AdapterState) : Ev → AdapterState
  | .openEvt i =>
      match st.sockets.get? i with
      | some s =>
          if s.listenersOn then
            { st with sockets := st.sockets.set i { s with timerOn := true } }
          else st
      | none => st
  | .closeEvt i =>
      match st.sockets.get? i with
      | some s =>
          if s.listenersOn then
            { sockets := st.sockets.set i { s with timerOn := false },
              pending := st.pending ++ [s.chunk] }
          else st
      | none => st
  | .elapse =>
      { sockets := st.sockets ++ st.pending.map
          (fun c => { chunk := c, listenersOn := true, timerOn := false }),
        pending := [] }
  | .disconnectCall => { sockets := [], pending := st.pending }

/-- Counterexample for C8: a close caused by `disconnect()` spawns no
replacement session.  `disconnect` removes every listener before closing
(websockets.js lines 140-141), so the close handler that would schedule the
respawn never runs: after the socket's close event and the reconnect delay
there are zero sessions, not one. -/
theorem close_after_disconnect_no_respawn :
    (stepEv (stepEv (stepEv
        (spawnSocket { sockets := [], pending := [] } [tickArg])
        .disconnectCall) (.closeEvt 0)) .elapse).sockets = [] ∧
    (stepEv (stepEv (stepEv
        (spawnSocket { sockets := [], pending := [] } [tickArg])
        .disconnectCall) (.closeEvt 0)) .elapse).pending = [] := by
  constructor <;> rfl

/-- C8 (amended): for every session close that occurs while the session's
listeners are attached — that is, any close not caused by `disconnect()` —
the heartbeat timer is cancelled and exactly one respawn of the identical
shard chunk is scheduled; once the fixed delay elapses, exactly one new
session holding that same chunk exists, so shard composition is never
reshuffled across reconnects. -/
theorem close_respawn (st : AdapterState) (i : ℕ) (s : Session)
    (hget : st.sockets.get? i = some s) (hl : s.listenersOn = true) :
    (stepEv st (.closeEvt i)).sockets.get? i
      = some { s with timerOn := false } ∧
    (stepEv st (.closeEvt i)).pending = st.pending ++ [s.chunk] ∧
    (st.pending = [] →
      (stepEv (stepEv st (.closeEvt i)) .elapse).sockets
        = st.sockets.set i { s with timerOn := false }
          ++ [{ chunk := s.chunk, listenersOn := true, timerOn := false }] ∧
      (stepEv (stepEv st (.closeEvt i)) .elapse).pending = []) := by
  have hstep : stepEv st (.closeEvt i)
      = { sockets := st.sockets.set i { s with timerOn := false },
          pending := st.pending ++ [s.chunk] } := by
    simp only [stepEv]
    rw [hget]
    simp [hl]
  refine ⟨?_, ?_, ?_⟩
  · rw [hstep]
    show (st.sockets.set i { s with timerOn := false }).get? i = _
    rw [List.get?_set_eq, hget]
    rfl
  · rw [hstep]
  · intro hp
    rw [hstep]
    constructor
    · show st.sockets.set i { s with timerOn := false }
          ++ (st.pending ++ [s.chunk]).map
            (fun c => { chunk := c, listenersOn := true, timerOn := false }) = _
      rw [hp]
      rfl
    · rfl

/-- Test fixture: a live session over the one-element ticker shard. -/
def sLive : Session := { chunk := [tickArg], listenersOn := true, timerOn := true }

/-- Test fixture: an adapter tracking exactly the live ticker session. -/
def stOne : AdapterState := { sockets := [sLive], pending := [] }

/-- Witness for C8 (amended): the single open session over the ticker shard
is closed unexpectedly; its timer stops and one identical replacement
appears after the delay. -/
theorem close_respawn_witness :
    (stepEv stOne (.closeEvt 0)).sockets.get? 0
      = some { sLive with timerOn := false } ∧
    (stepEv stOne (.closeEvt 0)).pending = stOne.pending ++ [sLive.chunk] ∧
    (stOne.pending = [] →
      (stepEv (stepEv stOne (.closeEvt 0)) .elapse).sockets
        = stOne.sockets.set 0 { sLive with timerOn := false }
          ++ [{ chunk := sLive.chunk, listenersOn := true, timerOn := false }] ∧
      (stepEv (stepEv stOne (.closeEvt 0)) .elapse).pending = []) :=
  close_respawn stOne 0 sLive rfl rfl

end SignalBitget
